import Mathlib

/-!
Verification of the response-caching subsystem
(`src/response-caching/src/production_cache.py`, with the key codec shared by
`src/response-caching/src/ai_cache.py`).

The Python code is shallowly embedded: the `OrderedDict` store becomes an
association list that preserves structural order, timestamps become `Nat`
(the code only compares time differences against non-negative TTLs, so the
truncated subtraction `now - created_at` agrees with the float arithmetic of
the source whenever it matters), and `hashlib.sha256(...).hexdigest()` is
embedded as an executable SHA-256 over byte lists with all 32-bit arithmetic
carried out on `Nat` modulo `2 ^ 32`.
-/

/-! ## SHA-256 (embedding of `hashlib.sha256(...).hexdigest()`) -/

/-- Truncation to a 32-bit word. -/
def w32 (x : Nat) : Nat := x % 4294967296

/-- Right rotation of a 32-bit word. -/
def rotr (r x : Nat) : Nat := w32 ((x >>> r) ||| (x <<< (32 - r)))

/-- Bitwise choice function of SHA-256. -/
def shaCh (x y z : Nat) : Nat := (x &&& y) ^^^ ((x ^^^ 4294967295) &&& z)

/-- Bitwise majority function of SHA-256. -/
def shaMaj (x y z : Nat) : Nat := (x &&& y) ^^^ (x &&& z) ^^^ (y &&& z)

/-- Big sigma-0 of SHA-256. -/
def bigSig0 (x : Nat) : Nat := rotr 2 x ^^^ rotr 13 x ^^^ rotr 22 x

/-- Big sigma-1 of SHA-256. -/
def bigSig1 (x : Nat) : Nat := rotr 6 x ^^^ rotr 11 x ^^^ rotr 25 x

/-- Small sigma-0 of SHA-256. -/
def smallSig0 (x : Nat) : Nat := rotr 7 x ^^^ rotr 18 x ^^^ (x >>> 3)

/-- Small sigma-1 of SHA-256. -/
def smallSig1 (x : Nat) : Nat := rotr 17 x ^^^ rotr 19 x ^^^ (x >>> 10)

/-- Round constants of SHA-256 (FIPS 180-4, written in decimal). -/
def shaK : Array Nat := #[
  1116352408, 1899447441, 3049323471, 3921009573, 961987163,
  1508970993, 2453635748, 2870763221, 3624381080, 310598401,
  607225278, 1426881987, 1925078388, 2162078206, 2614888103,
  3248222580, 3835390401, 4022224774, 264347078, 604807628,
  770255983, 1249150122, 1555081692, 1996064986, 2554220882,
  2821834349, 2952996808, 3210313671, 3336571891, 3584528711,
  113926993, 338241895, 666307205, 773529912, 1294757372,
  1396182291, 1695183700, 1986661051, 2177026350, 2456956037,
  2730485921, 2820302411, 3259730800, 3345764771, 3516065817,
  3600352804, 4094571909, 275423344, 430227734, 506948616,
  659060556, 883997877, 958139571, 1322822218, 1537002063,
  1747873779, 1955562222, 2024104815, 2227730452, 2361852424,
  2428436474, 2756734187, 3204031479, 3329325298]

/-- Running hash state of SHA-256: eight 32-bit words. -/
structure Hash8 where
  a : Nat
  b : Nat
  c : Nat
  d : Nat
  e : Nat
  f : Nat
  g : Nat
  h : Nat
deriving DecidableEq, Repr

/-- Initial hash value of SHA-256 (FIPS 180-4, written in decimal). -/
def shaH0 : Hash8 :=
  ⟨1779033703, 3144134277, 1013904242, 2773480762,
   1359893119, 2600822924, 528734635, 1541459225⟩

/-- Padding of SHA-256: append `0x80`, zero bytes up to 56 mod 64, and the
bit length as an 8-byte big-endian integer. -/
def shaPad (msg : List Nat) : List Nat :=
  let len := msg.length
  let zeros := (119 - len % 64) % 64
  msg ++ [0x80] ++ List.replicate zeros 0 ++
    (List.range 8).map (fun i => (8 * len) >>> (56 - 8 * i) % 256)

/-- Splitting of a byte list into 64-byte chunks. -/
def chunks64 (l : List Nat) : List (List Nat)  :=
  if h : l = [] then [] else
    l.take 64 :: chunks64 (l.drop 64)
termination_by l.length
decreasing_by
  have hp : 0 < l.length := List.length_pos.mpr h
  simp only [List.length_drop]
  omega

/-- Conversion of a 64-byte chunk into its sixteen big-endian 32-bit words. -/
def wordsOfChunk (chunk : List Nat) : Array Nat :=
  ((List.range 16).map (fun i =>
    (chunk.getD (4 * i) 0) <<< 24 + (chunk.getD (4 * i + 1) 0) <<< 16 +
    (chunk.getD (4 * i + 2) 0) <<< 8 + chunk.getD (4 * i + 3) 0)).toArray

/-- Message-schedule extension of SHA-256 from 16 to 64 words. -/
def shaSchedule (ws : Array Nat) : Array Nat :=
  (List.range 48).foldl (fun a _ =>
    a.push (w32 (smallSig1 (a.getD (a.size - 2) 0) + a.getD (a.size - 7) 0 +
      smallSig0 (a.getD (a.size - 15) 0) + a.getD (a.size - 16) 0))) ws

/-- Single round of the SHA-256 compression function. -/
def shaRound (ws : Array Nat) (s : Hash8) (i : Nat) : Hash8 :=
  let t1 := w32 (s.h + bigSig1 s.e + shaCh s.e s.f s.g + shaK.getD i 0 + ws.getD i 0)
  let t2 := w32 (bigSig0 s.a + shaMaj s.a s.b s.c)
  ⟨w32 (t1 + t2), s.a, s.b, s.c, w32 (s.d + t1), s.e, s.f, s.g⟩

/-- Compression of one 64-byte chunk into the running hash state. -/
def shaCompress (hs : Hash8) (chunk : List Nat) : Hash8 :=
  let ws := shaSchedule (wordsOfChunk chunk)
  let fin := (List.range 64).foldl (shaRound ws) hs
  ⟨w32 (hs.a + fin.a), w32 (hs.b + fin.b), w32 (hs.c + fin.c), w32 (hs.d + fin.d),
   w32 (hs.e + fin.e), w32 (hs.f + fin.f), w32 (hs.g + fin.g), w32 (hs.h + fin.h)⟩

/-- SHA-256 digest of a byte list, as eight 32-bit words. -/
def sha256Words (msg : List Nat) : Hash8 :=
  (chunks64 (shaPad msg)).foldl shaCompress shaH0

/-- Lower-case hexadecimal digit. -/
def hexDigit (n : Nat) : Char :=
  if n = 0 then '0' else if n = 1 then '1' else if n = 2 then '2' else if n = 3 then '3'
  else if n = 4 then '4' else if n = 5 then '5' else if n = 6 then '6' else if n = 7 then '7'
  else if n = 8 then '8' else if n = 9 then '9' else if n = 10 then 'a' else if n = 11 then 'b'
  else if n = 12 then 'c' else if n = 13 then 'd' else if n = 14 then 'e' else 'f'

/-- Eight-character hexadecimal rendering of a 32-bit word. -/
def word32Hex (w : Nat) : List Char :=
  [hexDigit (w >>> 28 % 16), hexDigit (w >>> 24 % 16), hexDigit (w >>> 20 % 16),
   hexDigit (w >>> 16 % 16), hexDigit (w >>> 12 % 16), hexDigit (w >>> 8 % 16),
   hexDigit (w >>> 4 % 16), hexDigit (w % 16)]

/-- Hexadecimal digest string of SHA-256, as returned by `hexdigest()`. -/
def sha256hex (msg : List Nat) : String :=
  String.mk (word32Hex (sha256Words msg).a ++ word32Hex (sha256Words msg).b ++
    word32Hex (sha256Words msg).c ++ word32Hex (sha256Words msg).d ++
    word32Hex (sha256Words msg).e ++ word32Hex (sha256Words msg).f ++
    word32Hex (sha256Words msg).g ++ word32Hex (sha256Words msg).h)

/-- UTF-8 bytes of a string, embedding `str.encode('utf-8')`. -/
def utf8Bytes (s : String) : List Nat :=
  s.toUTF8.toList.map (fun b => b.toNat)

/-! ## Key codec (embedding of `ProductionCache._make_key`, identical to
`ResponseCache._make_key` in `ai_cache.py`) -/

/-- Ordering on parameter pairs by key, as used by `json.dumps(params,
sort_keys=True)` when serializing a dict (dict keys are unique, so ordering
by key alone determines the sorted sequence). -/
@[reducible] def keyLe (p q : String × String) : Prop := p.1 ≤ q.1

/-- Strict ordering on parameter pairs by key. -/
@[reducible] def keyLt (p q : String × String) : Prop := p.1 < q.1

instance : DecidableRel keyLe := fun p q => inferInstanceAs (Decidable (p.1 ≤ q.1))

instance : IsTotal (String × String) keyLe := ⟨fun p q => le_total p.1 q.1⟩

instance : IsTrans (String × String) keyLe := ⟨fun _ _ _ h1 h2 => le_trans h1 h2⟩

instance : IsAntisymm (String × String) keyLt :=
  ⟨fun _ _ h1 h2 => absurd h2 (lt_asymm h1)⟩

/-- Parameter dict sorted by key, modelling the `sort_keys=True` pass of
`json.dumps`. A Python dict has unique keys; the model represents the dict as
an association list in insertion order. -/
def sortParams (params : List (String × String)) : List (String × String) :=
  List.insertionSort keyLe params

/-- JSON escaping of a character inside a string literal (the model covers
the quote and backslash escapes; other characters are passed through). -/
def jsonEscapeChar (c : Char) : String :=
  if c = '"' then "\\\"" else if c = '\\' then "\\\\" else String.singleton c

/-- JSON rendering of a string value. -/
def jsonStr (s : String) : String :=
  "\"" ++ String.join (s.data.map jsonEscapeChar) ++ "\""

/-- Embedding of `json.dumps(params, sort_keys=True)` for a dict with string
values: entries sorted by key, rendered with the default separators. -/
def jsonDumpsSorted (params : List (String × String)) : String :=
  "\x7b" ++
    String.intercalate ", " ((sortParams params).map (fun p => jsonStr p.1 ++ ": " ++ jsonStr p.2)) ++
    "\x7d"

/-- Embedding of `ProductionCache._make_key` (and the identical
`ResponseCache._make_key`): serialize the parameters with sorted keys, join
with the prompt via an underscore, and hash with SHA-256. -/
def make_key (prompt : String) (params : List (String × String)) : String :=
  sha256hex (utf8Bytes (prompt ++ "_" ++ jsonDumpsSorted params))

/-! ## Data model of `ProductionCache` -/

/-- Eviction policies of the cache (`CacheEvictionPolicy` enum). -/
inductive CacheEvictionPolicy where
  | LRU
  | LFU
  | FIFO
deriving DecidableEq, Repr

/-- Cache entry, embedding the per-key dict
`{'value', 'created_at', 'last_accessed', 'access_count', 'ttl'}` stored by
`ProductionCache.set`. Timestamps are modelled as `Nat`. -/
structure Entry where
  value : String
  created_at : Nat
  last_accessed : Nat
  access_count : Nat
  ttl : Nat
deriving DecidableEq, Repr

/-- Statistics counters of the cache (the `self.stats` dict; the
wall-clock `start_time` field is omitted because it never feeds back into
cache behaviour). -/
structure Stats where
  hits : Nat
  misses : Nat
  evictions : Nat
  errors : Nat
  total_requests : Nat
deriving DecidableEq, Repr

/-- State of a `ProductionCache`. The `OrderedDict` store is embedded as an
association list in structural order (front of the list = first item of the
`OrderedDict`); well-formed states have pairwise-distinct keys, exactly as a
Python dict does. -/
structure ProductionCache where
  max_size : Nat
  default_ttl : Nat
  eviction_policy : CacheEvictionPolicy
  cache : List (String × Entry)
  stats : Stats
deriving DecidableEq, Repr

/-- Constructor `ProductionCache.__init__`: empty store, zeroed counters. -/
def ProductionCache.init (max_size ttl : Nat) (policy : CacheEvictionPolicy) : ProductionCache :=
  ⟨max_size, ttl, policy, [], ⟨0, 0, 0, 0, 0⟩⟩

/-! ### `OrderedDict` primitives on association lists -/

/-- Lookup (`self._cache[key]` / `key in self._cache`). -/
def odLookup : List (String × Entry) → String → Option Entry
  | [], _ => none
  | (k1, e1) :: rest, k => if k1 = k then some e1 else odLookup rest k

/-- Assignment `self._cache[key] = entry`: an existing key keeps its
position in the `OrderedDict` (in-place update); a new key is appended at
the end. -/
def odSet : List (String × Entry) → String → Entry → List (String × Entry)
  | [], k, e => [(k, e)]
  | (k1, e1) :: rest, k, e => if k1 = k then (k, e) :: rest else (k1, e1) :: odSet rest k e

/-- Deletion `del self._cache[key]` (removes the unique binding of the key
in a well-formed store; on a list, the first one). -/
def odDelete : List (String × Entry) → String → List (String × Entry)
  | [], _ => []
  | (k1, e1) :: rest, k => if k1 = k then rest else (k1, e1) :: odDelete rest k

/-- Reordering `self._cache.move_to_end(key)`: the binding of the key moves
to the end of the `OrderedDict`; absent keys leave the store unchanged (the
source only calls this on a key that is present). -/
def odMoveToEnd (m : List (String × Entry)) (k : String) : List (String × Entry) :=
  match odLookup m k with
  | none => m
  | some e => odDelete m k ++ [(k, e)]

/-! ### Internal helpers of `ProductionCache` -/

/-- Embedding of `ProductionCache._cleanup_expired` (lines 89-101): every
entry with `current_time - created_at > ttl` is removed, all others are kept
in order. -/
def cleanup_expired (m : List (String × Entry)) (now : Nat) : List (String × Entry) :=
  m.filter (fun p => !(decide (now - p.2.created_at > p.2.ttl)))

/-- Accumulator scan of the LFU branch of `_select_eviction_candidate`
(lines 126-134): the running candidate is replaced exactly when a strictly
smaller `access_count` is seen, starting from `min_access_count = inf`
(modelled by the `none` accumulator, which every first element beats). -/
def lfuScan : List (String × Entry) → Option (String × Nat) → Option (String × Nat)
  | [], acc => acc
  | p :: rest, none => lfuScan rest (some (p.1, p.2.access_count))
  | p :: rest, some (k, c) =>
      if p.2.access_count < c then lfuScan rest (some (p.1, p.2.access_count))
      else lfuScan rest (some (k, c))

/-- Embedding of `ProductionCache._select_eviction_candidate`
(lines 117-140): `None` on an empty store; under LRU and FIFO the first key
of the `OrderedDict`; under LFU the strict-minimum scan over `access_count`. -/
def select_eviction_candidate (c : ProductionCache) : Option String :=
  match c.cache with
  | [] => none
  | (k0, e0) :: rest =>
    match c.eviction_policy with
    | .LRU => some k0
    | .LFU => (lfuScan ((k0, e0) :: rest) none).map Prod.fst
    | .FIFO => some k0

/-- Loop body of `ProductionCache._enforce_size_limits` (lines 103-115),
with explicit fuel. The Python `while len > max_size` loop deletes the
selected candidate and bumps the eviction counter on each iteration; each
iteration removes one present key, so `fuel = len(self._cache)` iterations
always suffice to falsify the guard. (The `if key_to_evict:` truthiness
test of the source can only fail on an empty store, which the guard
excludes, or on an empty-string key, which a 64-character hexdigest key
never is; in that unreachable situation the source would loop without
progress and the model stops instead.) -/
def enforceLoop : Nat → ProductionCache → ProductionCache
  | 0, c => c
  | fuel + 1, c =>
        if c.cache.length > c.max_size then
          match select_eviction_candidate c with
          | some k =>
              enforceLoop fuel
                { c with cache := odDelete c.cache k,
                         stats := { c.stats with evictions := c.stats.evictions + 1 } }
          | none => c
        else c

/-- Embedding of `ProductionCache._enforce_size_limits`. -/
def enforce_size_limits (c : ProductionCache) : ProductionCache :=
  enforceLoop c.cache.length c

/-- Resolution of the `ttl or self.default_ttl` idiom of `set`: Python falls
back to the default both when `ttl` is `None` and when it is `0` (falsy). -/
def resolveTtl (ttlo : Option Nat) (dflt : Nat) : Nat :=
  match ttlo with
  | none => dflt
  | some t => if t = 0 then dflt else t

/-! ### Public operations -/

/-- Body of `ProductionCache.get` (lines 142-187) after key derivation:
count the request, sweep expired entries, then hit (bump the entry, move it
to the end, count a hit, return the value) when
`current_time - created_at <= ttl`, else delete-and-miss. The model uses a
single timestamp `now` for the whole critical section. -/
def ProductionCache.getWithKey (c : ProductionCache) (key : String) (now : Nat) :
    Option String × ProductionCache :=
  let st := { c.stats with total_requests := c.stats.total_requests + 1 }
  let m := cleanup_expired c.cache now
  match odLookup m key with
  | some entry =>
      if now - entry.created_at ≤ entry.ttl then
        let e1 : Entry := { entry with access_count := entry.access_count + 1,
                                       last_accessed := now }
        (some entry.value,
         { c with cache := odMoveToEnd (odSet m key e1) key,
                  stats := { st with hits := st.hits + 1 } })
      else
        (none,
         { c with cache := odDelete m key,
                  stats := { st with misses := st.misses + 1 } })
  | none =>
      (none,
       { c with cache := m,
                stats := { st with misses := st.misses + 1 } })

/-- Embedding of `ProductionCache.get`. -/
def ProductionCache.get (c : ProductionCache) (prompt : String)
    (params : List (String × String)) (now : Nat) : Option String × ProductionCache :=
  c.getWithKey (make_key prompt params) now

/-- Body of `ProductionCache.set` (lines 189-227) after key derivation: run
the eviction pass when `len(self._cache) >= self.max_size`, then upsert a
fresh entry with `access_count = 1`. -/
def ProductionCache.setWithKey (c : ProductionCache) (key response : String)
    (ttlo : Option Nat) (now : Nat) : ProductionCache :=
  let c1 := if c.cache.length ≥ c.max_size then enforce_size_limits c else c
  let entry : Entry := ⟨response, now, now, 1, resolveTtl ttlo c.default_ttl⟩
  { c1 with cache := odSet c1.cache key entry }

/-- Embedding of `ProductionCache.set`. -/
def ProductionCache.set (c : ProductionCache) (prompt : String)
    (params : List (String × String)) (response : String) (ttlo : Option Nat)
    (now : Nat) : ProductionCache :=
  c.setWithKey (make_key prompt params) response ttlo now

/-- Body of `ProductionCache.invalidate` (lines 229-253) after key
derivation: delete the entry if present and report whether it existed. -/
def ProductionCache.invalidateWithKey (c : ProductionCache) (key : String) :
    Bool × ProductionCache :=
  if (odLookup c.cache key).isSome then
    (true, { c with cache := odDelete c.cache key })
  else
    (false, c)

/-- Embedding of `ProductionCache.invalidate`. -/
def ProductionCache.invalidate (c : ProductionCache) (prompt : String)
    (params : List (String × String)) : Bool × ProductionCache :=
  c.invalidateWithKey (make_key prompt params)

/-- Embedding of `ProductionCache.clear` (lines 255-272): empties the store,
returns the removed count, and leaves `self.stats` untouched. -/
def ProductionCache.clear (c : ProductionCache) : Nat × ProductionCache :=
  (c.cache.length, { c with cache := [] })

/-- Derived hit rate of `ProductionCache.get_stats` (line 281):
`hits / total * 100` when `total > 0`, else `0`. The Python float division
is modelled over `ℚ`. -/
def ProductionCache.hit_rate (c : ProductionCache) : ℚ :=
  if c.stats.total_requests > 0 then
    (c.stats.hits : ℚ) / (c.stats.total_requests : ℚ) * 100
  else 0

/-! ### Operation sequences -/

/-- Single public cache operation, for stating trace properties. -/
inductive CacheOp where
  | get (prompt : String) (params : List (String × String)) (now : Nat)
  | set (prompt : String) (params : List (String × String)) (response : String)
        (ttlo : Option Nat) (now : Nat)
  | invalidate (prompt : String) (params : List (String × String))
  | clear
deriving DecidableEq, Repr

/-- Application of one operation, discarding the returned value. -/
def applyOp (c : ProductionCache) : CacheOp → ProductionCache
  | .get prompt params now => (c.get prompt params now).2
  | .set prompt params response ttlo now => c.set prompt params response ttlo now
  | .invalidate prompt params => (c.invalidate prompt params).2
  | .clear => (ProductionCache.clear c).2

/-- Application of a sequence of operations. -/
def applyOps (c : ProductionCache) (ops : List CacheOp) : ProductionCache :=
  ops.foldl applyOp c

/-- Number of `get` requests in a sequence of operations. -/
def countGets (ops : List CacheOp) : Nat :=
  ops.countP (fun op => match op with | .get .. => true | _ => false)

/-- Number of `get` requests along a trace that hit the cache. -/
def traceHits : ProductionCache → List CacheOp → Nat
  | _, [] => 0
  | c, op :: rest =>
      (match op with
       | .get prompt params now => if (c.get prompt params now).1.isSome then 1 else 0
       | _ => 0) + traceHits (applyOp c op) rest

/-! ## Concrete trace states used by counterexamples and bug evaluations -/

/-- Trace for the capacity bound: `max_size = 1`, two `set` calls with
distinct keys. -/
def capEx : ProductionCache :=
  ((ProductionCache.init 1 3600 .LRU).setWithKey "a" "x" none 0).setWithKey "b" "y" none 1

/-- Trace of the spec's LRU eviction test on the embedding, `max_size = 2`:
`set a; set b; get a; set c`. -/
def lruEx : ProductionCache :=
  ((((ProductionCache.init 2 3600 .LRU).setWithKey "a" "va" none 0).setWithKey
      "b" "vb" none 1).getWithKey "a" 2).2.setWithKey "c" "vc" none 3

/-- Trace of the spec's FIFO eviction test on the embedding, `max_size = 2`:
`set a; set b; get a; set c`. -/
def fifoEx : ProductionCache :=
  ((((ProductionCache.init 2 3600 .FIFO).setWithKey "a" "va" none 0).setWithKey
      "b" "vb" none 1).getWithKey "a" 2).2.setWithKey "c" "vc" none 3

/-- Store holding one entry with `created_at = 0` and `ttl = 5`. -/
def ttlEx : ProductionCache :=
  (ProductionCache.init 10 3600 .LRU).setWithKey "k" "v" (some 5) 0

/-- Store after one `set` of key `k` followed by one `get` of `k` (a hit):
one request, one hit. -/
def hrEx : ProductionCache :=
  (((ProductionCache.init 10 3600 .LRU).setWithKey "k" "v" none 0).getWithKey "k" 1).2

/-- Store with a short-lived entry under `k1` and a long-lived entry under
`k2`, both created at time 0. -/
def sweepEx : ProductionCache :=
  ((ProductionCache.init 10 3600 .LRU).setWithKey "k1" "v1" (some 1) 0).setWithKey
    "k2" "v2" (some 100) 0

/-- LFU trace producing a tie at the minimal `access_count` in which the
structurally-first tied key is not the one with the oldest
`last_accessed`: `set a; set b; set c; get a; set b; set d` with
`max_size = 3`. -/
def lfuEx : ProductionCache :=
  ((((((ProductionCache.init 3 3600 .LFU).setWithKey "a" "va" none 0).setWithKey
        "b" "vb" none 1).setWithKey "c" "vc" none 2).getWithKey
      "a" 3).2.setWithKey "b" "vb2" none 4).setWithKey "d" "vd" none 5

/-! ## Claim theorems: concrete evaluations -/

/-- C1 (code bug evaluation): on a cache constructed with `max_size = 1`,
two `set` calls with distinct keys leave 2 = `max_size + 1` stored entries
and perform no eviction, because `set` runs `_enforce_size_limits` (whose
loop only fires while `size > max_size`) before inserting the new entry.
The claimed invariant `size ≤ max_size` after every `set` is violated by
the code. -/
theorem C1_capacity_violation_eval :
    capEx.max_size = 1 ∧ capEx.cache.length = 2 ∧ capEx.stats.evictions = 0 := by
  decide

/-- C3 (code bug evaluation): with LRU policy and `max_size = 2`, the
sequence `set a; set b; get a; set c` evicts nothing — the store afterwards
holds the three keys `b, a, c` and the eviction counter is 0 — instead of
evicting `b` as the claim states. (Only a further `set` would push the
least-recently-used key `b` out.) -/
theorem C3_lru_scenario_eval :
    lruEx.max_size = 2 ∧
    lruEx.cache.map Prod.fst = ["b", "a", "c"] ∧
    lruEx.stats.evictions = 0 := by
  decide

/-- C4 (code bug evaluation): with FIFO policy and `max_size = 2`, the
sequence `set a; set b; get a; set c` also evicts nothing (keys `b, a, c`
remain, eviction counter 0); moreover, when the eviction finally fires on
the next `set`, the victim is `b` (`created_at = 1`) and not `a`
(`created_at = 0`), because `get` unconditionally moves the touched key to
the end of the `OrderedDict`, so the FIFO branch does not ignore access
history as claimed. -/
theorem C4_fifo_scenario_eval :
    fifoEx.max_size = 2 ∧
    fifoEx.cache.map Prod.fst = ["b", "a", "c"] ∧
    fifoEx.stats.evictions = 0 ∧
    (odLookup fifoEx.cache "a").map (fun e => e.created_at) = some 0 ∧
    (odLookup fifoEx.cache "b").map (fun e => e.created_at) = some 1 ∧
    (fifoEx.setWithKey "d" "vd" none 4).cache.map Prod.fst = ["a", "c", "d"] := by
  decide

/-- C2 counterexample: at the boundary `now − created_at = ttl` — here an
entry created at 0 with `ttl = 5`, read at `now = 5` — the code records a
hit and returns the value, whereas the claim says an entry with
`now − created_at ≥ ttl` is removed and a miss is recorded; the source's
liveness test is `current_time - created_at <= ttl`, not `< ttl`. -/
theorem C2_boundary_counterexample :
    (odLookup ttlEx.cache "k").map (fun e => (e.created_at, e.ttl)) = some (0, 5) ∧
    ¬ ((5 : Nat) - 0 < 5) ∧
    (ttlEx.getWithKey "k" 5).1 = some "v" ∧
    (ttlEx.getWithKey "k" 5).2.stats.hits = 1 ∧
    (odLookup (ttlEx.getWithKey "k" 5).2.cache "k").isSome = true := by
  decide

/-- C7 counterexample: a `get` of key `k2` removes the expired entry stored
under the different key `k1` (the source calls `_cleanup_expired`, a full
sweep, at the start of every `get`), contradicting the claim that a `get`
removes at most the entry under its own key. -/
theorem C7_sweep_counterexample :
    (odLookup sweepEx.cache "k1").map (fun e => (e.created_at, e.ttl)) = some (0, 1) ∧
    (5 : Nat) - 0 > 1 ∧
    (sweepEx.getWithKey "k2" 5).1 = some "v2" ∧
    odLookup (sweepEx.getWithKey "k2" 5).2.cache "k1" = none := by
  decide

/-- C8 counterexample: in the state reached by
`set a; set b; set c; get a; set b; set d` under LFU, the keys `b`, `c` and
`d` are tied at the minimal `access_count = 1`, the oldest `last_accessed`
among the ties belongs to `c` (time 2, versus 4 for `b` and 5 for `d`), yet
`_select_eviction_candidate` returns `b`: the tie-break is structural
`OrderedDict` order, not oldest `last_accessed` as claimed. -/
theorem C8_tiebreak_counterexample :
    lfuEx.eviction_policy = .LFU ∧
    lfuEx.cache.map (fun p => (p.1, p.2.access_count, p.2.last_accessed)) =
      [("b", 1, 4), ("c", 1, 2), ("a", 2, 3), ("d", 1, 5)] ∧
    select_eviction_candidate lfuEx = some "b" := by
  decide

/-- C9 (confirmed): `clear` empties the store, returns exactly the number of
entries that were stored, and leaves the statistics counters and the
configuration untouched. -/
theorem C9_clear_spec (c : ProductionCache) :
    (ProductionCache.clear c).1 = c.cache.length ∧
    (ProductionCache.clear c).2.cache = [] ∧
    (ProductionCache.clear c).2.stats = c.stats ∧
    (ProductionCache.clear c).2.max_size = c.max_size ∧
    (ProductionCache.clear c).2.default_ttl = c.default_ttl ∧
    (ProductionCache.clear c).2.eviction_policy = c.eviction_policy :=
  ⟨rfl, rfl, rfl, rfl, rfl, rfl⟩

/-! ## Lemmas about the `OrderedDict` primitives -/

theorem odLookup_mem {m : List (String × Entry)} {k : String} {e : Entry}
    (h : odLookup m k = some e) : (k, e) ∈ m := by
  induction m with
  | nil => simp [odLookup] at h
  | cons p rest ih =>
      obtain ⟨k1, e1⟩ := p
      by_cases hk : k1 = k
      · subst hk
        simp [odLookup] at h
        simp [h]
      · simp [odLookup, hk] at h
        exact List.mem_cons_of_mem _ (ih h)

theorem odLookup_of_mem_nodup {m : List (String × Entry)} {k : String} {e : Entry}
    (hnd : (m.map Prod.fst).Nodup) (h : (k, e) ∈ m) : odLookup m k = some e := by
  induction m with
  | nil => simp at h
  | cons p rest ih =>
      obtain ⟨k1, e1⟩ := p
      simp only [List.map_cons, List.nodup_cons] at hnd
      rcases List.mem_cons.mp h with h1 | h1
      · obtain ⟨hk, he⟩ := Prod.mk.injEq .. ▸ h1
        simp [odLookup, hk.symm, he]
      · have hk : k1 ≠ k := by
          intro hk
          subst hk
          exact hnd.1 (List.mem_map.mpr ⟨(k1, e), h1, rfl⟩)
        simp [odLookup, hk]
        exact ih hnd.2 h1

theorem odLookup_eq_none {m : List (String × Entry)} {k : String}
    (h : k ∉ m.map Prod.fst) : odLookup m k = none := by
  induction m with
  | nil => rfl
  | cons p rest ih =>
      obtain ⟨k1, e1⟩ := p
      simp only [List.map_cons, List.mem_cons] at h
      push_neg at h
      simp [odLookup, Ne.symm h.1, ih h.2]

theorem odLookup_filter_keep {m : List (String × Entry)} {k : String} {e : Entry}
    {p : String × Entry → Bool} (h : odLookup m k = some e) (hp : p (k, e) = true) :
    odLookup (m.filter p) k = some e := by
  induction m with
  | nil => simp [odLookup] at h
  | cons q rest ih =>
      obtain ⟨k1, e1⟩ := q
      by_cases hk : k1 = k
      · subst hk
        simp [odLookup] at h
        subst h
        simp [List.filter, hp, odLookup]
      · simp only [odLookup, if_neg hk] at h
        by_cases hq : p (k1, e1) = true
        · simp [List.filter_cons, hq, odLookup, hk, ih h]
        · simp only [Bool.not_eq_true] at hq
          simp [List.filter_cons, hq, ih h]

theorem keys_filter_nodup {m : List (String × Entry)} {p : String × Entry → Bool}
    (hnd : (m.map Prod.fst).Nodup) : ((m.filter p).map Prod.fst).Nodup :=
  hnd.sublist ((List.filter_sublist m).map Prod.fst)

theorem mem_odSet_elim {m : List (String × Entry)} {k : String} {e : Entry}
    {q : String × Entry} (h : q ∈ odSet m k e) : q ∈ m ∨ q = (k, e) := by
  induction m with
  | nil => simp [odSet] at h; simp [h]
  | cons r rest ih =>
      obtain ⟨k1, e1⟩ := r
      by_cases hk : k1 = k
      · simp only [odSet, if_pos hk] at h
        rcases List.mem_cons.mp h with h1 | h1
        · exact Or.inr h1
        · exact Or.inl (List.mem_cons_of_mem _ h1)
      · simp only [odSet, if_neg hk] at h
        rcases List.mem_cons.mp h with h1 | h1
        · exact Or.inl (h1 ▸ List.mem_cons_self _ _)
        · rcases ih h1 with h2 | h2
          · exact Or.inl (List.mem_cons_of_mem _ h2)
          · exact Or.inr h2

theorem mem_odSet_of_ne {m : List (String × Entry)} {k k1 : String} {e e1 : Entry}
    (hne : k1 ≠ k) : (k1, e1) ∈ odSet m k e ↔ (k1, e1) ∈ m := by
  induction m with
  | nil => simp [odSet, hne]
  | cons r rest ih =>
      obtain ⟨k2, e2⟩ := r
      by_cases hk : k2 = k
      · subst hk
        simp only [odSet, if_pos rfl]
        constructor
        · intro h
          rcases List.mem_cons.mp h with h1 | h1
          · exact absurd (congrArg Prod.fst h1) hne
          · exact List.mem_cons_of_mem _ h1
        · intro h
          rcases List.mem_cons.mp h with h1 | h1
          · exact absurd (congrArg Prod.fst h1) hne
          · exact List.mem_cons_of_mem _ h1
      · simp only [odSet, if_neg hk]
        simp [ih]

theorem odLookup_odSet_self {m : List (String × Entry)} {k : String} {e : Entry} :
    odLookup (odSet m k e) k = some e := by
  induction m with
  | nil => simp [odSet, odLookup]
  | cons r rest ih =>
      obtain ⟨k1, e1⟩ := r
      by_cases hk : k1 = k
      · simp [odSet, hk, odLookup]
      · simp [odSet, hk, odLookup, ih]

theorem keys_odSet_of_mem {m : List (String × Entry)} {k : String} {e : Entry}
    (h : k ∈ m.map Prod.fst) : (odSet m k e).map Prod.fst = m.map Prod.fst := by
  induction m with
  | nil => simp at h
  | cons r rest ih =>
      obtain ⟨k1, e1⟩ := r
      by_cases hk : k1 = k
      · simp [odSet, hk]
      · simp only [List.map_cons, List.mem_cons] at h
        rcases h with h | h
        · exact absurd h.symm hk
        · simp [odSet, hk, ih h]

theorem mem_odDelete_sub {m : List (String × Entry)} {k : String}
    {q : String × Entry} (h : q ∈ odDelete m k) : q ∈ m := by
  induction m with
  | nil => simp [odDelete] at h
  | cons r rest ih =>
      obtain ⟨k1, e1⟩ := r
      by_cases hk : k1 = k
      · simp only [odDelete, if_pos hk] at h
        exact List.mem_cons_of_mem _ h
      · simp only [odDelete, if_neg hk] at h
        rcases List.mem_cons.mp h with h1 | h1
        · exact h1 ▸ List.mem_cons_self _ _
        · exact List.mem_cons_of_mem _ (ih h1)

theorem mem_odDelete_of_ne {m : List (String × Entry)} {k k1 : String} {e1 : Entry}
    (hne : k1 ≠ k) : (k1, e1) ∈ odDelete m k ↔ (k1, e1) ∈ m := by
  induction m with
  | nil => simp [odDelete]
  | cons r rest ih =>
      obtain ⟨k2, e2⟩ := r
      by_cases hk : k2 = k
      · subst hk
        simp only [odDelete, if_pos rfl]
        constructor
        · exact fun h => List.mem_cons_of_mem _ h
        · intro h
          rcases List.mem_cons.mp h with h1 | h1
          · exact absurd (congrArg Prod.fst h1) hne
          · exact h1
      · simp only [odDelete, if_neg hk]
        simp [ih]

theorem keys_odDelete_not_mem {m : List (String × Entry)} {k : String}
    (hnd : (m.map Prod.fst).Nodup) : k ∉ (odDelete m k).map Prod.fst := by
  induction m with
  | nil => simp [odDelete]
  | cons r rest ih =>
      obtain ⟨k1, e1⟩ := r
      simp only [List.map_cons, List.nodup_cons] at hnd
      by_cases hk : k1 = k
      · subst hk
        simpa [odDelete] using hnd.1
      · simp only [odDelete, if_neg hk, List.map_cons, List.mem_cons]
        push_neg
        exact ⟨fun h => hk h.symm, ih hnd.2⟩

theorem odLookup_append_left_none {l1 l2 : List (String × Entry)} {k : String}
    (h : k ∉ l1.map Prod.fst) : odLookup (l1 ++ l2) k = odLookup l2 k := by
  induction l1 with
  | nil => rfl
  | cons r rest ih =>
      obtain ⟨k1, e1⟩ := r
      simp only [List.map_cons, List.mem_cons] at h
      push_neg at h
      simp [odLookup, Ne.symm h.1, ih h.2]

theorem mem_odMoveToEnd_sub {m : List (String × Entry)} {k : String}
    {q : String × Entry} (h : q ∈ odMoveToEnd m k) : q ∈ m := by
  unfold odMoveToEnd at h
  rcases hl : odLookup m k with _ | e
  · rwa [hl] at h
  · rw [hl] at h
    rcases List.mem_append.mp h with h1 | h1
    · exact mem_odDelete_sub h1
    · simp at h1
      exact h1 ▸ odLookup_mem hl

theorem mem_odMoveToEnd_of_ne {m : List (String × Entry)} {k k1 : String} {e1 : Entry}
    (hne : k1 ≠ k) : (k1, e1) ∈ odMoveToEnd m k ↔ (k1, e1) ∈ m := by
  unfold odMoveToEnd
  rcases hl : odLookup m k with _ | e
  · rfl
  · constructor
    · intro h
      rcases List.mem_append.mp h with h1 | h1
      · exact (mem_odDelete_of_ne hne).mp h1
      · simp at h1
        exact absurd h1.1 hne
    · intro h
      exact List.mem_append.mpr (Or.inl ((mem_odDelete_of_ne hne).mpr h))

theorem odLookup_odMoveToEnd_self {m : List (String × Entry)} {k : String} {e : Entry}
    (hnd : (m.map Prod.fst).Nodup) (h : odLookup m k = some e) :
    odLookup (odMoveToEnd m k) k = some e := by
  unfold odMoveToEnd
  rw [h, odLookup_append_left_none (keys_odDelete_not_mem hnd), odLookup]
  simp

theorem keys_mem_odMoveToEnd_self {m : List (String × Entry)} {k : String} {e : Entry}
    (h : odLookup m k = some e) : k ∈ (odMoveToEnd m k).map Prod.fst := by
  unfold odMoveToEnd
  rw [h]
  simp

/-! ## C2: TTL semantics of `get` (amended) -/

/-- C2 (amended): for an entry present in the store, `get` returns the
cached value — recording a hit, bumping `last_accessed` and `access_count`
— exactly when `now − created_at ≤ ttl` (the source tests `<=`, so an entry
is still served at the instant `now − created_at = ttl`); when
`now − created_at > ttl` the entry is removed, a miss is recorded, and
nothing is returned. -/
theorem C2_ttl_amended (c : ProductionCache) (k : String) (now : Nat) (e : Entry)
    (hnd : (c.cache.map Prod.fst).Nodup)
    (hlk : odLookup c.cache k = some e) :
    (now - e.created_at ≤ e.ttl →
      (c.getWithKey k now).1 = some e.value ∧
      (c.getWithKey k now).2.stats.hits = c.stats.hits + 1 ∧
      (c.getWithKey k now).2.stats.total_requests = c.stats.total_requests + 1 ∧
      odLookup (c.getWithKey k now).2.cache k =
        some { e with access_count := e.access_count + 1, last_accessed := now }) ∧
    (e.ttl < now - e.created_at →
      (c.getWithKey k now).1 = none ∧
      (c.getWithKey k now).2.stats.misses = c.stats.misses + 1 ∧
      (c.getWithKey k now).2.stats.total_requests = c.stats.total_requests + 1 ∧
      odLookup (c.getWithKey k now).2.cache k = none) := by
  constructor
  · intro hlive
    have hpred : (fun p : String × Entry => !(decide (now - p.2.created_at > p.2.ttl))) (k, e) = true := by
      simp [decide_eq_false (not_lt.mpr hlive)]
    have hm : odLookup (cleanup_expired c.cache now) k = some e :=
      odLookup_filter_keep hlk hpred
    have hndm : ((cleanup_expired c.cache now).map Prod.fst).Nodup :=
      keys_filter_nodup hnd
    have hkm : k ∈ (cleanup_expired c.cache now).map Prod.fst :=
      List.mem_map.mpr ⟨(k, e), odLookup_mem hm, rfl⟩
    have hnds : ((odSet (cleanup_expired c.cache now) k
        { e with access_count := e.access_count + 1, last_accessed := now }).map Prod.fst).Nodup := by
      rw [keys_odSet_of_mem hkm]
      exact hndm
    have hself : odLookup (odSet (cleanup_expired c.cache now) k
        { e with access_count := e.access_count + 1, last_accessed := now }) k =
        some { e with access_count := e.access_count + 1, last_accessed := now } :=
      odLookup_odSet_self
    have hres : c.getWithKey k now =
        (some e.value,
          { c with
              cache := odMoveToEnd (odSet (cleanup_expired c.cache now) k
                { e with access_count := e.access_count + 1, last_accessed := now }) k,
              stats := { hits := c.stats.hits + 1, misses := c.stats.misses,
                         evictions := c.stats.evictions, errors := c.stats.errors,
                         total_requests := c.stats.total_requests + 1 } }) := by
      simp only [ProductionCache.getWithKey, hm]
      rw [if_pos hlive]
    rw [hres]
    exact ⟨rfl, rfl, rfl, odLookup_odMoveToEnd_self hnds hself⟩
  · intro hexp
    have hm : odLookup (cleanup_expired c.cache now) k = none := by
      rcases h2 : odLookup (cleanup_expired c.cache now) k with _ | e2
      · rfl
      · exfalso
        have hmem := odLookup_mem h2
        have hsplit := List.mem_filter.mp hmem
        have he2 : e2 = e := by
          have hh := odLookup_of_mem_nodup hnd hsplit.1
          rw [hlk] at hh
          exact (Option.some.injEq .. ▸ hh).symm
        have hp := hsplit.2
        simp only [Bool.not_eq_true', decide_eq_false_iff_not, not_lt] at hp
        rw [he2] at hp
        omega
    refine ⟨?_, ?_, ?_, ?_⟩ <;> simp [ProductionCache.getWithKey, hm]

/-- Witness for C2: the concrete store `ttlEx` (one entry `k ↦ v`,
`created_at = 0`, `ttl = 5`) read at `now = 3`, within the TTL: the value is
returned, a hit is recorded, and the entry is bumped. -/
theorem C2_ttl_amended_witness :
    (ttlEx.cache.map Prod.fst).Nodup ∧
    odLookup ttlEx.cache "k" = some ⟨"v", 0, 0, 1, 5⟩ ∧
    ((ttlEx.getWithKey "k" 3).1 = some "v" ∧
      (ttlEx.getWithKey "k" 3).2.stats.hits = ttlEx.stats.hits + 1 ∧
      (ttlEx.getWithKey "k" 3).2.stats.total_requests = ttlEx.stats.total_requests + 1 ∧
      odLookup (ttlEx.getWithKey "k" 3).2.cache "k" = some ⟨"v", 0, 3, 2, 5⟩) :=
  ⟨by decide, by decide,
    (C2_ttl_amended ttlEx "k" 3 ⟨"v", 0, 0, 1, 5⟩ (by decide) (by decide)).1 (by decide)⟩

/-! ## C7: expiry frame property of `get` and `set` (amended) -/

/-- C7 (amended): a `get` proactively sweeps the whole store — after it
completes no expired entry remains (first conjunct) while every live entry
is retained (second conjunct) — because `_cleanup_expired` runs at the
start of every `get`; a `set` that triggers no capacity eviction
(`size < max_size`) removes nothing, so expired entries under other keys
survive `set` unchanged (third conjunct). -/
theorem C7_expiry_frame_amended (c : ProductionCache) (k : String) (now : Nat)
    (hnd : (c.cache.map Prod.fst).Nodup) :
    (∀ p ∈ (c.getWithKey k now).2.cache, now - p.2.created_at ≤ p.2.ttl) ∧
    (∀ p ∈ c.cache, now - p.2.created_at ≤ p.2.ttl →
      p.1 ∈ (c.getWithKey k now).2.cache.map Prod.fst) ∧
    (∀ (v : String) (ttlo : Option Nat) (p : String × Entry),
      p ∈ c.cache → p.1 ≠ k → c.cache.length < c.max_size →
      p ∈ (c.setWithKey k v ttlo now).cache) := by
  have hlive_of_mem : ∀ p ∈ cleanup_expired c.cache now, now - p.2.created_at ≤ p.2.ttl := by
    intro p hp
    have := (List.mem_filter.mp hp).2
    simp only [Bool.not_eq_true', decide_eq_false_iff_not, not_lt] at this
    exact this
  have hmem_cleanup : ∀ p ∈ c.cache, now - p.2.created_at ≤ p.2.ttl →
      p ∈ cleanup_expired c.cache now := by
    intro p hp hlive
    refine List.mem_filter.mpr ⟨hp, ?_⟩
    simp only [Bool.not_eq_true', decide_eq_false_iff_not, not_lt]
    exact hlive
  refine ⟨?_, ?_, ?_⟩
  · intro p hp
    rcases hl : odLookup (cleanup_expired c.cache now) k with _ | entry
    · simp only [ProductionCache.getWithKey, hl] at hp
      exact hlive_of_mem p hp
    · by_cases hc : now - entry.created_at ≤ entry.ttl
      · simp only [ProductionCache.getWithKey, hl] at hp
        rw [if_pos hc] at hp
        simp only at hp
        have hp2 := mem_odMoveToEnd_sub hp
        rcases mem_odSet_elim hp2 with h1 | h1
        · exact hlive_of_mem p h1
        · subst h1
          simpa using hc
      · simp only [ProductionCache.getWithKey, hl] at hp
        rw [if_neg hc] at hp
        simp only at hp
        exact hlive_of_mem p (mem_odDelete_sub hp)
  · intro p hp hlive
    obtain ⟨k1, e1⟩ := p
    have hm : (k1, e1) ∈ cleanup_expired c.cache now := hmem_cleanup _ hp hlive
    rcases hl : odLookup (cleanup_expired c.cache now) k with _ | entry
    · simp only [ProductionCache.getWithKey, hl]
      exact List.mem_map.mpr ⟨(k1, e1), hm, rfl⟩
    · by_cases hc : now - entry.created_at ≤ entry.ttl
      · simp only [ProductionCache.getWithKey, hl]
        rw [if_pos hc]
        simp only
        by_cases hk : k1 = k
        · subst hk
          exact keys_mem_odMoveToEnd_self odLookup_odSet_self
        · refine List.mem_map.mpr ⟨(k1, e1), ?_, rfl⟩
          exact (mem_odMoveToEnd_of_ne hk).mpr ((mem_odSet_of_ne hk).mpr hm)
      · simp only [ProductionCache.getWithKey, hl]
        rw [if_neg hc]
        simp only
        by_cases hk : k1 = k
        · exfalso
          subst hk
          have hndm : ((cleanup_expired c.cache now).map Prod.fst).Nodup :=
            keys_filter_nodup hnd
          have hh := odLookup_of_mem_nodup hndm hm
          rw [hl] at hh
          have he : entry = e1 := Option.some.injEq .. ▸ hh
          subst he
          simp only at hlive
          omega
        · exact List.mem_map.mpr ⟨(k1, e1), (mem_odDelete_of_ne hk).mpr hm, rfl⟩
  · intro v ttlo p hp hk hlen
    simp only [ProductionCache.setWithKey]
    rw [if_neg (not_le.mpr hlen)]
    obtain ⟨k1, e1⟩ := p
    exact (mem_odSet_of_ne hk).mpr hp

/-- Witness for C7: the concrete store `sweepEx` (expired `k1`, live `k2`)
with a `get` of `k2` at time 5 and the frame property of `set`. -/
theorem C7_expiry_frame_amended_witness :
    (sweepEx.cache.map Prod.fst).Nodup ∧
    ((∀ p ∈ (sweepEx.getWithKey "k2" 5).2.cache, 5 - p.2.created_at ≤ p.2.ttl) ∧
      (∀ p ∈ sweepEx.cache, 5 - p.2.created_at ≤ p.2.ttl →
        p.1 ∈ (sweepEx.getWithKey "k2" 5).2.cache.map Prod.fst) ∧
      (∀ (v : String) (ttlo : Option Nat) (p : String × Entry),
        p ∈ sweepEx.cache → p.1 ≠ "k2" → sweepEx.cache.length < sweepEx.max_size →
        p ∈ (sweepEx.setWithKey "k2" v ttlo 5).cache)) :=
  ⟨by decide, C7_expiry_frame_amended sweepEx "k2" 5 (by decide)⟩

/-! ## C8: LFU victim selection (amended) -/

/-- Characterization of the strict-minimum scan: starting from accumulator
`(k, cnt)`, the scan returns either the accumulator unchanged (when no
element of the list has a strictly smaller count) or the first element of
the list attaining the minimum; the result is always a lower bound of every
count in the list. -/
theorem lfuScan_spec (l : List (String × Entry)) :
    ∀ (k : String) (cnt : Nat) (k2 : String) (c2 : Nat),
    lfuScan l (some (k, cnt)) = some (k2, c2) →
    c2 ≤ cnt ∧ (∀ p ∈ l, c2 ≤ p.2.access_count) ∧
      ((k2 = k ∧ c2 = cnt) ∨
        ∃ pre e post, l = pre ++ (k2, e) :: post ∧ e.access_count = c2 ∧ c2 < cnt ∧
          ∀ p ∈ pre, c2 < p.2.access_count) := by
  induction l with
  | nil =>
      intro k cnt k2 c2 h
      simp only [lfuScan, Option.some.injEq, Prod.mk.injEq] at h
      exact ⟨h.2 ▸ le_refl _, by simp, Or.inl ⟨h.1.symm, h.2.symm⟩⟩
  | cons p rest ih =>
      intro k cnt k2 c2 h
      by_cases hlt : p.2.access_count < cnt
      · rw [show lfuScan (p :: rest) (some (k, cnt)) =
            lfuScan rest (some (p.1, p.2.access_count)) by
          simp [lfuScan, hlt]] at h
        obtain ⟨hle, hall, hcases⟩ := ih p.1 p.2.access_count k2 c2 h
        refine ⟨le_trans hle (le_of_lt hlt), ?_, ?_⟩
        · intro q hq
          rcases List.mem_cons.mp hq with h1 | h1
          · exact h1 ▸ hle
          · exact hall q h1
        · rcases hcases with ⟨hk, hc⟩ | ⟨pre, e, post, hsplit, hcnt, hlt2, hpre⟩
          · refine Or.inr ⟨[], p.2, rest, ?_, hc.symm, hc ▸ hlt, by simp⟩
            simp [hk]
          · refine Or.inr ⟨p :: pre, e, post, by simp [hsplit], hcnt,
              lt_trans hlt2 hlt, ?_⟩
            intro q hq
            rcases List.mem_cons.mp hq with h1 | h1
            · exact h1 ▸ hlt2
            · exact hpre q h1
      · rw [show lfuScan (p :: rest) (some (k, cnt)) = lfuScan rest (some (k, cnt)) by
          simp [lfuScan, hlt]] at h
        obtain ⟨hle, hall, hcases⟩ := ih k cnt k2 c2 h
        refine ⟨hle, ?_, ?_⟩
        · intro q hq
          rcases List.mem_cons.mp hq with h1 | h1
          · exact h1 ▸ le_trans hle (not_lt.mp hlt)
          · exact hall q h1
        · rcases hcases with ⟨hk, hc⟩ | ⟨pre, e, post, hsplit, hcnt, hlt2, hpre⟩
          · exact Or.inl ⟨hk, hc⟩
          · refine Or.inr ⟨p :: pre, e, post, by simp [hsplit], hcnt, hlt2, ?_⟩
            intro q hq
            rcases List.mem_cons.mp hq with h1 | h1
            · exact h1 ▸ lt_of_lt_of_le hlt2 (not_lt.mp hlt)
            · exact hpre q h1

/-- The scan with a concrete accumulator always yields a result. -/
theorem lfuScan_isSome (l : List (String × Entry)) :
    ∀ (k : String) (cnt : Nat), ∃ k2 c2, lfuScan l (some (k, cnt)) = some (k2, c2) := by
  induction l with
  | nil => exact fun k cnt => ⟨k, cnt, rfl⟩
  | cons p rest ih =>
      intro k cnt
      by_cases hlt : p.2.access_count < cnt
      · obtain ⟨k2, c2, h⟩ := ih p.1 p.2.access_count
        exact ⟨k2, c2, by simp [lfuScan, hlt, h]⟩
      · obtain ⟨k2, c2, h⟩ := ih k cnt
        exact ⟨k2, c2, by simp [lfuScan, hlt, h]⟩

/-- C8 (amended): with LFU policy, `_select_eviction_candidate` returns a
key whose `access_count` is minimal over the entire store, and among the
keys tied at that minimum the victim is the one that comes first in the
structural `OrderedDict` order (insertion order as modified by the
`move_to_end` of every hit) — not the one with the oldest `last_accessed_at`. -/
theorem C8_lfu_selection_amended (c : ProductionCache)
    (hpol : c.eviction_policy = CacheEvictionPolicy.LFU)
    (hne : c.cache ≠ []) :
    ∃ k e pre post, select_eviction_candidate c = some k ∧
      c.cache = pre ++ (k, e) :: post ∧
      (∀ p ∈ c.cache, e.access_count ≤ p.2.access_count) ∧
      (∀ p ∈ pre, e.access_count < p.2.access_count) := by
  rcases hc : c.cache with _ | ⟨⟨k0, e0⟩, rest⟩
  · exact absurd hc hne
  · obtain ⟨k2, c2, hscan⟩ := lfuScan_isSome rest k0 e0.access_count
    have hsel : select_eviction_candidate c = some k2 := by
      simp only [select_eviction_candidate, hc, hpol]
      rw [show lfuScan ((k0, e0) :: rest) none =
        lfuScan rest (some (k0, e0.access_count)) from rfl, hscan]
      rfl
    obtain ⟨hle, hall, hcases⟩ := lfuScan_spec rest k0 e0.access_count k2 c2 hscan
    rcases hcases with ⟨hk, hcnt⟩ | ⟨pre, e, post, hsplit, hcnt, hlt2, hpre⟩
    · refine ⟨k0, e0, [], rest, hk ▸ hsel, by simp, ?_, by simp⟩
      intro p hp
      rcases List.mem_cons.mp hp with h1 | h1
      · exact h1 ▸ le_refl _
      · exact hcnt ▸ hall p h1
    · refine ⟨k2, e, (k0, e0) :: pre, post, hsel, by simp [hsplit], ?_, ?_⟩
      · intro p hp
        rcases List.mem_cons.mp hp with h1 | h1
        · exact h1 ▸ (hcnt ▸ le_of_lt hlt2)
        · exact hcnt ▸ hall p h1
      · intro p hp
        rcases List.mem_cons.mp hp with h1 | h1
        · exact h1 ▸ (hcnt ▸ hlt2)
        · exact hcnt ▸ hpre p h1

/-- Witness for C8: the amended victim rule applied to the concrete LFU
store `lfuEx`. -/
theorem C8_lfu_selection_amended_witness :
    lfuEx.eviction_policy = CacheEvictionPolicy.LFU ∧ lfuEx.cache ≠ [] ∧
    (∃ k e pre post, select_eviction_candidate lfuEx = some k ∧
      lfuEx.cache = pre ++ (k, e) :: post ∧
      (∀ p ∈ lfuEx.cache, e.access_count ≤ p.2.access_count) ∧
      (∀ p ∈ pre, e.access_count < p.2.access_count)) :=
  ⟨by decide, by decide, C8_lfu_selection_amended lfuEx (by decide) (by decide)⟩

/-! ## C5: key derivation determinism and option-order insensitivity -/

/-- Sorting by key is insensitive to the order in which the parameter pairs
are supplied, provided the keys are distinct (as they are in a Python
dict): two permutations of the same pair multiset sort to the same list. -/
theorem sortParams_congr (l1 l2 : List (String × String))
    (hnd : (l1.map Prod.fst).Nodup) (hp : l1.Perm l2) :
    sortParams l1 = sortParams l2 := by
  have hperm : (sortParams l1).Perm (sortParams l2) :=
    (List.perm_insertionSort keyLe l1).trans
      (hp.trans (List.perm_insertionSort keyLe l2).symm)
  have hnd1 : ((sortParams l1).map Prod.fst).Nodup :=
    (((List.perm_insertionSort keyLe l1).map Prod.fst).nodup_iff).mpr hnd
  have hnd2 : ((sortParams l2).map Prod.fst).Nodup :=
    (((List.perm_insertionSort keyLe l2).map Prod.fst).nodup_iff).mpr
      (((hp.map Prod.fst).nodup_iff).mp hnd)
  have hlt1 : List.Sorted keyLt (sortParams l1) :=
    ((List.sorted_insertionSort keyLe l1).and (List.pairwise_map.mp hnd1)).imp
      (fun h => lt_of_le_of_ne h.1 h.2)
  have hlt2 : List.Sorted keyLt (sortParams l2) :=
    ((List.sorted_insertionSort keyLe l2).and (List.pairwise_map.mp hnd2)).imp
      (fun h => lt_of_le_of_ne h.1 h.2)
  exact List.eq_of_perm_of_sorted hperm hlt1 hlt2

/-- The hexadecimal SHA-256 digest always has 64 characters. -/
theorem sha256hex_length (msg : List Nat) : (sha256hex msg).length = 64 := rfl

/-- C5 (confirmed): key derivation is a pure function — two calls on the
same `(prompt, params)` pair trivially agree — and it is insensitive to the
order in which the parameter pairs are supplied (for the distinct keys of a
dict), because `json.dumps(..., sort_keys=True)` canonicalizes the
serialization; the resulting key is always a fixed-length 64-character
SHA-256 hexdigest. -/
theorem C5_key_determinism (prompt : String) (l1 l2 : List (String × String))
    (hnd : (l1.map Prod.fst).Nodup) (hp : l1.Perm l2) :
    make_key prompt l1 = make_key prompt l2 ∧ (make_key prompt l1).length = 64 := by
  constructor
  · unfold make_key jsonDumpsSorted
    rw [sortParams_congr l1 l2 hnd hp]
  · exact sha256hex_length _

/-- Witness for C5: a two-entry parameter dict supplied in two different
orders yields the same derived key, of length 64. -/
theorem C5_key_determinism_witness :
    (([("b", "1"), ("a", "2")] : List (String × String)).map Prod.fst).Nodup ∧
    ([("b", "1"), ("a", "2")] : List (String × String)).Perm [("a", "2"), ("b", "1")] ∧
    (make_key "p" [("b", "1"), ("a", "2")] = make_key "p" [("a", "2"), ("b", "1")] ∧
      (make_key "p" [("b", "1"), ("a", "2")]).length = 64) :=
  ⟨by decide, by decide,
    C5_key_determinism "p" [("b", "1"), ("a", "2")] [("a", "2"), ("b", "1")]
      (by decide) (by decide)⟩

/-! ## Statistics lemmas for the counter claims -/

/-- The eviction loop touches only the eviction counter: hit, miss and
request counters pass through unchanged. -/
theorem enforceLoop_stats_frame : ∀ (fuel : Nat) (c : ProductionCache),
    (enforceLoop fuel c).stats.hits = c.stats.hits ∧
    (enforceLoop fuel c).stats.misses = c.stats.misses ∧
    (enforceLoop fuel c).stats.total_requests = c.stats.total_requests := by
  intro fuel
  induction fuel with
  | zero => exact fun c => ⟨rfl, rfl, rfl⟩
  | succ n ih =>
      intro c
      simp only [enforceLoop]
      by_cases hlen : c.cache.length > c.max_size
      · rw [if_pos hlen]
        rcases hsel : select_eviction_candidate c with _ | k
        · exact ⟨rfl, rfl, rfl⟩
        · exact ih _
      · rw [if_neg hlen]
        exact ⟨rfl, rfl, rfl⟩

/-- A `set` changes no hit, miss or request counter. -/
theorem setWithKey_stats_frame (c : ProductionCache) (k v : String)
    (ttlo : Option Nat) (now : Nat) :
    (c.setWithKey k v ttlo now).stats.hits = c.stats.hits ∧
    (c.setWithKey k v ttlo now).stats.misses = c.stats.misses ∧
    (c.setWithKey k v ttlo now).stats.total_requests = c.stats.total_requests := by
  simp only [ProductionCache.setWithKey]
  by_cases hlen : c.cache.length ≥ c.max_size
  · rw [if_pos hlen]
    exact enforceLoop_stats_frame _ c
  · rw [if_neg hlen]
    exact ⟨rfl, rfl, rfl⟩

/-- A `get` counts one request and exactly one of hit or miss; it records a
hit exactly when it returns a value. -/
theorem getWithKey_stats (c : ProductionCache) (k : String) (now : Nat) :
    (c.getWithKey k now).2.stats.total_requests = c.stats.total_requests + 1 ∧
    (c.getWithKey k now).2.stats.hits + (c.getWithKey k now).2.stats.misses
      = c.stats.hits + c.stats.misses + 1 ∧
    (c.getWithKey k now).2.stats.hits
      = c.stats.hits + (if (c.getWithKey k now).1.isSome then 1 else 0) := by
  rcases hl : odLookup (cleanup_expired c.cache now) k with _ | entry
  · simp only [ProductionCache.getWithKey, hl]
    refine ⟨by trivial, by omega, by simp⟩
  · by_cases hc : now - entry.created_at ≤ entry.ttl
    · simp only [ProductionCache.getWithKey, hl, if_pos hc]
      refine ⟨by trivial, by omega, by simp⟩
    · simp only [ProductionCache.getWithKey, hl, if_neg hc]
      refine ⟨by trivial, by omega, by simp⟩

/-- An `invalidate` leaves the statistics record untouched. -/
theorem invalidateWithKey_stats (c : ProductionCache) (k : String) :
    (c.invalidateWithKey k).2.stats = c.stats := by
  simp only [ProductionCache.invalidateWithKey]
  split <;> rfl

/-- Single-operation preservation of `hits + misses = total_requests`. -/
theorem applyOp_counter_inv (c : ProductionCache) (op : CacheOp)
    (h : c.stats.hits + c.stats.misses = c.stats.total_requests) :
    (applyOp c op).stats.hits + (applyOp c op).stats.misses
      = (applyOp c op).stats.total_requests := by
  cases op with
  | get prompt params now =>
      obtain ⟨ht, hhm, _⟩ := getWithKey_stats c (make_key prompt params) now
      simp only [applyOp, ProductionCache.get] at *
      omega
  | set prompt params response ttlo now =>
      obtain ⟨hh, hm, ht⟩ :=
        setWithKey_stats_frame c (make_key prompt params) response ttlo now
      simp only [applyOp, ProductionCache.set] at *
      omega
  | invalidate prompt params =>
      have hs := invalidateWithKey_stats c (make_key prompt params)
      simp only [applyOp, ProductionCache.invalidate, hs]
      exact h
  | clear => exact h

/-- Trace preservation of `hits + misses = total_requests`. -/
theorem applyOps_counter_inv : ∀ (ops : List CacheOp) (c : ProductionCache),
    c.stats.hits + c.stats.misses = c.stats.total_requests →
    (applyOps c ops).stats.hits + (applyOps c ops).stats.misses
      = (applyOps c ops).stats.total_requests := by
  intro ops
  induction ops with
  | nil => exact fun c h => h
  | cons op rest ih => exact fun c h => ih (applyOp c op) (applyOp_counter_inv c op h)

/-- C10 (confirmed): along every operation sequence on a freshly constructed
`ProductionCache` (no internal exception occurring, as in the embedding),
the statistics satisfy `hits + misses = total_requests`: each `get`
increments `total_requests` and exactly one of `hits`/`misses`, while `set`,
`invalidate` and `clear` change none of the three counters. -/
theorem C10_counter_invariant (max_size dttl : Nat) (pol : CacheEvictionPolicy)
    (ops : List CacheOp) :
    (applyOps (ProductionCache.init max_size dttl pol) ops).stats.hits +
      (applyOps (ProductionCache.init max_size dttl pol) ops).stats.misses =
      (applyOps (ProductionCache.init max_size dttl pol) ops).stats.total_requests :=
  applyOps_counter_inv ops (ProductionCache.init max_size dttl pol) rfl

/-- The request counter counts exactly the `get` operations of a trace. -/
theorem applyOps_total_requests : ∀ (ops : List CacheOp) (c : ProductionCache),
    (applyOps c ops).stats.total_requests = c.stats.total_requests + countGets ops := by
  intro ops
  induction ops with
  | nil => intro c; simp [applyOps, countGets]
  | cons op rest ih =>
      intro c
      have hstep : applyOps c (op :: rest) = applyOps (applyOp c op) rest := rfl
      rw [hstep, ih]
      cases op with
      | get prompt params now =>
          have ht := (getWithKey_stats c (make_key prompt params) now).1
          simp only [applyOp, ProductionCache.get] at *
          simp only [countGets, List.countP_cons]
          simp [countGets] at *
          omega
      | set prompt params response ttlo now =>
          have ht := (setWithKey_stats_frame c (make_key prompt params) response ttlo now).2.2
          simp only [applyOp, ProductionCache.set] at *
          simp only [countGets, List.countP_cons]
          simp [countGets] at *
          omega
      | invalidate prompt params =>
          have hs := invalidateWithKey_stats c (make_key prompt params)
          simp only [applyOp, ProductionCache.invalidate, hs]
          simp only [countGets, List.countP_cons]
          simp [countGets]
      | clear =>
          simp only [applyOp, ProductionCache.clear]
          simp only [countGets, List.countP_cons]
          simp [countGets]

/-- The hit counter counts exactly the hitting `get` operations of a trace. -/
theorem applyOps_hits : ∀ (ops : List CacheOp) (c : ProductionCache),
    (applyOps c ops).stats.hits = c.stats.hits + traceHits c ops := by
  intro ops
  induction ops with
  | nil => intro c; simp [applyOps, traceHits]
  | cons op rest ih =>
      intro c
      have hstep : applyOps c (op :: rest) = applyOps (applyOp c op) rest := rfl
      rw [hstep, ih]
      cases op with
      | get prompt params now =>
          have hh := (getWithKey_stats c (make_key prompt params) now).2.2
          simp only [applyOp, ProductionCache.get, traceHits] at *
          omega
      | set prompt params response ttlo now =>
          have hh := (setWithKey_stats_frame c (make_key prompt params) response ttlo now).1
          simp only [applyOp, ProductionCache.set, traceHits] at *
          omega
      | invalidate prompt params =>
          have hs := invalidateWithKey_stats c (make_key prompt params)
          simp only [applyOp, ProductionCache.invalidate, hs, traceHits]
          omega
      | clear =>
          simp only [applyOp, ProductionCache.clear, traceHits]
          omega

/-! ## C6: hit-rate accounting -/

/-- C6 counterexample: after one `set` and one hitting `get` we have
`H = N = 1`, so the claim demands `hit_rate = H/N = 1`, but `get_stats`
reports `hits / total * 100 = 100` — the source exposes a percentage, not
the fraction `H/N`. -/
theorem C6_percent_counterexample :
    hrEx.stats.hits = 1 ∧ hrEx.stats.total_requests = 1 ∧
    hrEx.hit_rate = 100 ∧
    (hrEx.stats.hits : ℚ) / (hrEx.stats.total_requests : ℚ) = 1 ∧
    (100 : ℚ) ≠ 1 := by
  have h1 : hrEx.stats.hits = 1 := by decide
  have h2 : hrEx.stats.total_requests = 1 := by decide
  refine ⟨h1, h2, ?_, ?_, by norm_num⟩
  · norm_num [ProductionCache.hit_rate, h1, h2]
  · norm_num [h1, h2]

/-- C6 (amended): after any operation sequence on a fresh cache containing
N `get` requests of which H hit, the statistics report
`total_requests = N`, `hits = H`, and a hit rate equal to the percentage
`100 * H / N` exactly (0 when no request was made) — the source reports
`hits / total * 100`, not the fraction `H/N`. -/
theorem C6_hit_rate_amended (max_size dttl : Nat) (pol : CacheEvictionPolicy)
    (ops : List CacheOp) :
    (applyOps (ProductionCache.init max_size dttl pol) ops).stats.total_requests
      = countGets ops ∧
    (applyOps (ProductionCache.init max_size dttl pol) ops).stats.hits
      = traceHits (ProductionCache.init max_size dttl pol) ops ∧
    (applyOps (ProductionCache.init max_size dttl pol) ops).hit_rate =
      (if countGets ops = 0 then 0 else
        100 * (traceHits (ProductionCache.init max_size dttl pol) ops : ℚ) /
          (countGets ops : ℚ)) := by
  have ht : (applyOps (ProductionCache.init max_size dttl pol) ops).stats.total_requests
      = countGets ops := by
    have := applyOps_total_requests ops (ProductionCache.init max_size dttl pol)
    simpa [ProductionCache.init] using this
  have hh : (applyOps (ProductionCache.init max_size dttl pol) ops).stats.hits
      = traceHits (ProductionCache.init max_size dttl pol) ops := by
    have := applyOps_hits ops (ProductionCache.init max_size dttl pol)
    simpa [ProductionCache.init] using this
  refine ⟨ht, hh, ?_⟩
  unfold ProductionCache.hit_rate
  rw [ht, hh]
  by_cases hn : countGets ops = 0
  · simp [hn]
  · rw [if_pos (Nat.pos_of_ne_zero hn), if_neg hn]
    ring
